import Mathlib

/-!
Verification of the metaTOR network-construction module (`metator/network.py`).

The Python source is shallowly embedded: the per-contig dictionary
`contig_data` becomes a function from contig names to a record of the numeric
fields the network stage reads (`id`, `length`, `hit`, `coverage`, `RS`);
file streams become lists; functions that can raise a Python exception return
`Option` and yield `none` exactly where the source raises.  Rational numbers
stand for the decimal values parsed from the input files, and real numbers are
used where the source computes with `np.sqrt`.
-/

/-- Numeric view of one value of the `contig_data` dictionary, holding the
fields read by `compute_network` / `normalize_pair`: `id`, `length`, `hit`,
`coverage` and `RS`.  (`network.py`, docstrings of `compute_network` and
`normalize_pair`.) -/
structure ContigNumeric where
  id : ℕ
  length : ℚ
  hit : ℕ
  coverage : ℚ
  rs : ℚ
  deriving DecidableEq

/-- Embedding of `normalize_pair` (`network.py` lines 279-354).  Each branch
computes the factor of the corresponding normalization strategy and returns
`n_occ / factor`; the `abundance` and `theoritical_hit` branches return `0`
when their factor is `0`.  An unknown strategy name leaves the Python local
`factor` unbound, so the final `return n_occ / factor` raises
`UnboundLocalError`: that case is `none`. -/
noncomputable def normalizePair (contig_data : String → ContigNumeric)
    (prev_pair : String × String) (n_occ : ℕ) (normalization : String) :
    Option ℝ :=
  if normalization = "abundance" then
    let factor := Real.sqrt (((contig_data prev_pair.1).coverage : ℝ) *
      ((contig_data prev_pair.2).coverage : ℝ))
    if factor = 0 then some 0 else some (n_occ / factor)
  else if normalization = "length" then
    some (n_occ / Real.sqrt (((contig_data prev_pair.1).hit : ℝ) /
      ((contig_data prev_pair.1).length : ℝ) *
      ((contig_data prev_pair.2).hit : ℝ) /
      ((contig_data prev_pair.2).length : ℝ)))
  else if normalization = "RS" then
    some (n_occ / (0.01 * Real.sqrt (((contig_data prev_pair.1).hit : ℝ) /
      ((contig_data prev_pair.1).rs : ℝ) *
      ((contig_data prev_pair.2).hit : ℝ) /
      ((contig_data prev_pair.2).rs : ℝ))))
  else if normalization = "RS_length" then
    some (n_occ / Real.sqrt (((contig_data prev_pair.1).hit : ℝ) / 10 *
      Real.sqrt (((contig_data prev_pair.1).length : ℝ) *
        ((contig_data prev_pair.1).rs : ℝ)) *
      ((contig_data prev_pair.2).hit : ℝ) / 10 *
      Real.sqrt (((contig_data prev_pair.2).length : ℝ) *
        ((contig_data prev_pair.2).rs : ℝ))))
  else if normalization = "empirical_hit" then
    some (n_occ / Real.sqrt (((contig_data prev_pair.1).hit : ℝ) *
      ((contig_data prev_pair.2).hit : ℝ)))
  else if normalization = "theoritical_hit" then
    let factor := Real.sqrt (((contig_data prev_pair.1).coverage : ℝ) * 10 *
      Real.sqrt (((contig_data prev_pair.1).length : ℝ) *
        ((contig_data prev_pair.1).rs : ℝ)) *
      ((contig_data prev_pair.2).coverage : ℝ) * 10 *
      Real.sqrt (((contig_data prev_pair.2).length : ℝ) *
        ((contig_data prev_pair.2).rs : ℝ)))
    if factor = 0 then some 0 else some (n_occ / factor)
  else none

/-- Lexicographic comparison of canonical pairs, first field then second. -/
def pairLE (a b : String × String) : Prop :=
  a.1 < b.1 ∨ (a.1 = b.1 ∧ a.2 ≤ b.2)

instance pairLE.instDecidableRel : DecidableRel pairLE := fun a b => by
  unfold pairLE; infer_instance

instance pairLE.instIsTotal : IsTotal (String × String) pairLE :=
  ⟨fun a b => by
    rcases lt_trichotomy a.1 b.1 with h | h | h
    · exact Or.inl (Or.inl h)
    · rcases le_total a.2 b.2 with h2 | h2
      · exact Or.inl (Or.inr ⟨h, h2⟩)
      · exact Or.inr (Or.inr ⟨h.symm, h2⟩)
    · exact Or.inr (Or.inl h)⟩

instance pairLE.instIsTrans : IsTrans (String × String) pairLE :=
  ⟨fun a b c hab hbc => by
    rcases hab with h1 | ⟨e1, l1⟩ <;> rcases hbc with h2 | ⟨e2, l2⟩
    · exact Or.inl (lt_trans h1 h2)
    · exact Or.inl (e2 ▸ h1)
    · exact Or.inl (e1 ▸ h2)
    · exact Or.inr ⟨e1.trans e2, le_trans l1 l2⟩⟩

/-- Modelled from the spec: `mio.sort_pairs` (imported from `metator.io`,
which is not part of this module) sorts the pre-network pair file
lexicographically, first field then second, so that identical pairs become
contiguous (`compute_network` lines 199-205, spec section 4.3). -/
def sortPairs (pairs : List (String × String)) : List (String × String) :=
  List.insertionSort pairLE pairs

/-- Embedding of the streaming group-by loop of `compute_network`
(`network.py` lines 207-276).  Arguments mirror the Python locals: the
still-unread portion of the sorted stream, `prev_pair`, `curr_pair` (an
`Option` because the Python local is only assigned inside the `for` body, so
reading it when the loop body never ran raises `UnboundLocalError` — the
`none` case of the final flush), `n_occ`, and the edge lines written so far.
`none` results model uncaught Python exceptions. -/
noncomputable def computeNetworkLoop (contig_data : String → ContigNumeric)
    (normalization : String) :
    List (String × String) → String × String → Option (String × String) → ℕ →
    List (ℕ × ℕ × ℝ) → Option (List (ℕ × ℕ × ℝ))
  | [], prev_pair, curr_pair?, n_occ, net =>
    -- Final flush after the stream ends ("Write the last value", lines
    -- 254-276).  The ids written come from `curr_pair`, the effective count
    -- from `prev_pair`.
    match curr_pair? with
    | none => none
    | some curr_pair =>
      match (if normalization ≠ "None"
             then normalizePair contig_data prev_pair n_occ normalization
             else some (n_occ : ℝ)) with
      | none => none
      | some effective_count =>
        some (net ++ [((contig_data curr_pair.1).id,
          (contig_data curr_pair.2).id, effective_count)])
  | pair :: rest, prev_pair, _, n_occ, net =>
    if prev_pair = pair then
      computeNetworkLoop contig_data normalization rest prev_pair (some pair)
        (n_occ + 1) net
    else
      if 0 < n_occ then
        match (if normalization ≠ "None"
               then normalizePair contig_data prev_pair n_occ normalization
               else some (n_occ : ℝ)) with
        | none => none
        | some effective_count =>
          computeNetworkLoop contig_data normalization rest pair (some pair) 1
            (net ++ [((contig_data prev_pair.1).id,
              (contig_data prev_pair.2).id, effective_count)])
      else
        computeNetworkLoop contig_data normalization rest pair (some pair) 1 net

/-- Embedding of `compute_network` (`network.py` lines 165-276): sort the
pre-network stream, then run the streaming group-by.  `next(pairs_reader)` on
an empty sorted file raises `StopIteration`, hence `none` on the empty
stream. -/
noncomputable def computeNetwork (contig_data : String → ContigNumeric)
    (normalization : String) (pre_network : List (String × String)) :
    Option (List (ℕ × ℕ × ℝ)) :=
  match sortPairs pre_network with
  | [] => none
  | prev_pair :: rest =>
    computeNetworkLoop contig_data normalization rest prev_pair none 1 []

/-- Run-length grouping with a seed group: `rleFrom p n l` lists the maximal
runs of equal consecutive elements of `l`, the first run extended by a group
of `p`s of multiplicity `n`.  Specification-side description of the group
boundaries the streaming pass of `compute_network` emits. -/
def rleFrom (p : String × String) (n_occ : ℕ) :
    List (String × String) → List ((String × String) × ℕ)
  | [] => [(p, n_occ)]
  | q :: rest =>
    if p = q then rleFrom p (n_occ + 1) rest else (p, n_occ) :: rleFrom q 1 rest

/-- Groups of the sorted canonical-pair stream, in the order the streaming
pass of `compute_network` meets them. -/
def pairGroups (pairs : List (String × String)) :
    List ((String × String) × ℕ) :=
  match sortPairs pairs with
  | [] => []
  | q :: rest => rleFrom q 1 rest

/-- Concrete `contig_data` with coverage `0` on contig `a`, for witnesses. -/
def cdCovZero : String → ContigNumeric :=
  fun n => if n = "a" then ⟨1, 100, 10, 0, 1⟩ else ⟨2, 50, 4, 9, 1⟩

/-- Concrete `contig_data` with nonzero coverages, for witnesses. -/
def cdCovPos : String → ContigNumeric :=
  fun n => if n = "a" then ⟨1, 100, 10, 9, 1⟩ else ⟨2, 50, 4, 4, 1⟩

/-- Single hit increment `contig_data[name]["hit"] += 1` of
`precompute_network` (lines 497-498). -/
def bumpHit (contig_data : String → ContigNumeric) (name : String) :
    String → ContigNumeric :=
  Function.update contig_data name
    { contig_data name with hit := (contig_data name).hit + 1 }

/-- The two sequential hit increments of the `precompute_network` record loop
(lines 497-498): both named contigs are counted; a self pair increments the
same contig's counter twice. -/
def updateHits (contig_data : String → ContigNumeric) (p : String × String) :
    String → ContigNumeric :=
  bumpHit (bumpHit contig_data p.1) p.2

/-- Embedding of the canonicalize-and-write branch chain of the
`precompute_network` record loop (lines 503-517): the pre-network line
emitted for the record, if any, together with the increment of
`inter_contacts_temp`. -/
def collectPair (contig_data : String → ContigNumeric) (self_contacts : Bool)
    (p : String × String) : Option (String × String) × ℕ :=
  if self_contacts ∧ (contig_data p.1).id = (contig_data p.2).id then
    (some (p.1, p.2), 0)
  else if (contig_data p.1).id < (contig_data p.2).id then
    (some (p.1, p.2), 1)
  else if (contig_data p.2).id < (contig_data p.1).id then
    (some (p.2, p.1), 1)
  else
    (none, 0)

/-- Embedding of the inner loop of `precompute_network` over one alignment
file (lines 485-517).  Each record contributes `1` to `all_contacts_temp`,
two hit increments, and possibly an emitted line plus an
`inter_contacts_temp` increment.  Result: updated `contig_data`, emitted
lines, `all_contacts_temp`, `inter_contacts_temp`.  (The optional per-library
`hit_data` counters, kept only when several alignment files are given, are
not modelled.) -/
def processAlignmentFile (self_contacts : Bool) :
    List (String × String) → (String → ContigNumeric) →
    List (String × String) → ℕ → ℕ →
    (String → ContigNumeric) × List (String × String) × ℕ × ℕ
  | [], contig_data, pre_net, all_temp, inter_temp =>
    (contig_data, pre_net, all_temp, inter_temp)
  | p :: pairs, contig_data, pre_net, all_temp, inter_temp =>
    let emitted := collectPair contig_data self_contacts p
    processAlignmentFile self_contacts pairs (updateHits contig_data p)
      (pre_net ++ emitted.1.toList) (all_temp + 1) (inter_temp + emitted.2)

/-- Embedding of the outer loop of `precompute_network` (lines 476-543):
iterate the alignment files; after each file the source logs the per-file 3D
ratio `inter_contacts_temp / all_contacts_temp` (line 533) and after all
files the overall ratio (line 543) — Python integer division, raising an
uncaught `ZeroDivisionError` when the denominator is `0`, modelled as
`none`. -/
def precomputeNetworkLoop (self_contacts : Bool) :
    List (List (String × String)) → (String → ContigNumeric) →
    List (String × String) → ℕ → ℕ →
    Option ((String → ContigNumeric) × List (String × String) × ℕ × ℕ)
  | [], contig_data, pre_net, all_contacts, inter_contacts =>
    if all_contacts = 0 then none
    else some (contig_data, pre_net, all_contacts, inter_contacts)
  | f :: files, contig_data, pre_net, all_contacts, inter_contacts =>
    let r := processAlignmentFile self_contacts f contig_data pre_net 0 0
    if r.2.2.1 = 0 then none
    else precomputeNetworkLoop self_contacts files r.1 r.2.1
      (all_contacts + r.2.2.1) (inter_contacts + r.2.2.2)

/-- Embedding of `precompute_network` (`network.py` lines 438-545). -/
def precomputeNetwork (aligment_files : List (List (String × String)))
    (contig_data : String → ContigNumeric) (self_contacts : Bool) :
    Option ((String → ContigNumeric) × List (String × String) × ℕ × ℕ) :=
  precomputeNetworkLoop self_contacts aligment_files contig_data [] 0 0

/-- One record of the assembly fasta stream, as the external `SeqIO.parse`
collaborator exposes it: contig name (`contig.id`) and sequence. -/
structure FastaContig where
  name : String
  seq : String
  deriving DecidableEq

/-- One value of the registry dictionary built by `create_contig_data`:
`id`, `length`, `GC`, `hit`, `coverage` (`none` models the string `"-"`
stored when no depth file is given), `RS` (`none` models `"-"` when no
enzyme is given). -/
structure ContigEntry where
  id : ℕ
  length : ℕ
  gc : ℚ
  hit : ℕ
  coverage : Option ℚ
  rs : Option ℕ
  deriving DecidableEq

/-- Python `dict` insertion with string keys: an existing key is overwritten
in place, a new key is appended; iteration order is insertion order. -/
def dictInsert (d : List (String × ContigEntry)) (k : String)
    (v : ContigEntry) : List (String × ContigEntry) :=
  if d.any (fun kv => kv.1 == k) then
    d.map (fun kv => if kv.1 = k then (k, v) else kv)
  else d ++ [(k, v)]

/-- Numeric value of a decimal digit character, `none` otherwise. -/
def digitVal? (c : Char) : Option ℕ :=
  if c.isDigit then some (c.toNat - 48) else none

/-- Value of a nonempty string of decimal digits, `none` otherwise. -/
def digitsToNat? : List Char → Option ℕ
  | [] => none
  | ds => ds.foldl (fun acc c =>
      match acc, digitVal? c with
      | some n, some d => some (n * 10 + d)
      | _, _ => none) (some 0)

/-- Models Python `int(s)` on the unsigned decimal literals found in the
length column of depth files: `none` (a `ValueError`) otherwise. -/
def pyNat? (s : String) : Option ℕ :=
  digitsToNat? s.data

/-- Split a character list on the decimal point. -/
def splitOnDot : List Char → List (List Char)
  | [] => [[]]
  | c :: rest =>
    if c = '.' then [] :: splitOnDot rest
    else
      match splitOnDot rest with
      | [] => [[c]]
      | g :: gs => (c :: g) :: gs

/-- Models Python `float(s)` on the unsigned decimal literals found in the
coverage column of depth files (digits with an optional fractional part):
`none` (a `ValueError`) otherwise. -/
def pyFloat? (s : String) : Option ℚ :=
  match splitOnDot s.data with
  | [a] => (digitsToNat? a).map (fun n => (n : ℚ))
  | [a, b] =>
    match digitsToNat? a, digitsToNat? b with
    | some x, some y => some ((x : ℚ) + (y : ℚ) / ((10 : ℚ) ^ b.length))
    | _, _ => none
  | _ => none

/-- Embedding of the depth-file branch of `create_contig_data` (lines
395-415).  `depth.readline()` past the end of the file returns the empty
string, whose tab-split is `[""]`, so `line[1]` then raises `IndexError`
(`none`); `int(line[1])` / `float(line[2])` raise `ValueError` on non-numeric
text (`none`). -/
def createContigDataDepth (gcOf : String → ℚ) (rsOf : String → ℕ)
    (enzyme : Bool) :
    List FastaContig → List (List String) → ℕ →
    List (String × ContigEntry) → Option (List (String × ContigEntry))
  | [], _, _, contig_data => some contig_data
  | contig :: contigs, depth_rows, global_id, contig_data =>
    let line := depth_rows.headD [""]
    match line.get? 1, line.get? 2 with
    | some lenS, some covS =>
      match pyNat? lenS, pyFloat? covS with
      | some len, some cov =>
        createContigDataDepth gcOf rsOf enzyme contigs depth_rows.tail
          (global_id + 1)
          (dictInsert contig_data contig.name
            { id := global_id, length := len, gc := gcOf contig.seq,
              hit := 0, coverage := some cov,
              rs := if enzyme then some (rsOf contig.seq + 1) else none })
      | _, _ => none
    | _, _ => none

/-- Embedding of the no-depth branch of `create_contig_data` (lines
416-433): length from the sequence, coverage stored as `"-"`. -/
def createContigDataNoDepth (gcOf : String → ℚ) (rsOf : String → ℕ)
    (enzyme : Bool) :
    List FastaContig → ℕ → List (String × ContigEntry) →
    List (String × ContigEntry)
  | [], _, contig_data => contig_data
  | contig :: contigs, global_id, contig_data =>
    createContigDataNoDepth gcOf rsOf enzyme contigs (global_id + 1)
      (dictInsert contig_data contig.name
        { id := global_id, length := contig.seq.length, gc := gcOf contig.seq,
          hit := 0, coverage := none,
          rs := if enzyme then some (rsOf contig.seq + 1) else none })

/-- Embedding of `create_contig_data` (`network.py` lines 357-435).  `gcOf`
and `rsOf` model the external collaborators `SeqUtils.GC` and the
restriction-pattern count `len(re.findall(pattern, str(contig.seq)))`;
`depth_rows` are the tab-split data rows of the depth file after its header
line.  (The `hit_data` dictionary, allocated only when several alignment
files are given, is not modelled.) -/
def createContigData (gcOf : String → ℚ) (rsOf : String → ℕ) (enzyme : Bool)
    (assembly : List FastaContig)
    (depth_rows : Option (List (List String))) :
    Option (List (String × ContigEntry)) :=
  match depth_rows with
  | some rows => createContigDataDepth gcOf rsOf enzyme assembly rows 1 []
  | none => some (createContigDataNoDepth gcOf rsOf enzyme assembly 1 [])

/-- Weighted undirected graph as `networkx.Graph` stores it: a node list and
one stored record per undirected edge (its endpoints in storage orientation,
plus the `weight` attribute).  Node labels are rendered as strings (the bin
graphs of `network.py` mix integer contig ids with `"bin_*"` names). -/
structure WGraph where
  nodes : List String
  edges : List (String × String × ℚ)
  deriving DecidableEq

/-- Does a stored edge connect `a` and `b` (in either orientation)? -/
def edgeMatches (e : String × String × ℚ) (a b : String) : Prop :=
  (e.1 = a ∧ e.2.1 = b) ∨ (e.1 = b ∧ e.2.1 = a)

instance edgeMatches.instDecidable (e : String × String × ℚ) (a b : String) :
    Decidable (edgeMatches e a b) := by
  unfold edgeMatches; infer_instance

/-- Embedding of `G.has_edge(a, b)`. -/
def hasEdgeW (G : WGraph) (a b : String) : Prop :=
  ∃ e ∈ G.edges, edgeMatches e a b

instance hasEdgeW.instDecidable (G : WGraph) (a b : String) :
    Decidable (hasEdgeW G a b) := by
  unfold hasEdgeW; exact List.decidableBEx _ _

/-- Embedding of `G2.edges[a, b]["weight"] += w`: bump the weight of the first
stored edge between `a` and `b` (`networkx` stores at most one). -/
def bumpWeight : List (String × String × ℚ) → String → String → ℚ →
    List (String × String × ℚ)
  | [], _, _, _ => []
  | e :: es, a, b, w =>
    if edgeMatches e a b then (e.1, e.2.1, e.2.2 + w) :: es
    else e :: bumpWeight es a b w

/-- Embedding of `G.add_node(v)`: a no-op when the node already exists. -/
def addNodeW (G : WGraph) (v : String) : WGraph :=
  if v ∈ G.nodes then G else { G with nodes := G.nodes ++ [v] }

/-- Embedding of the `if G2.has_edge(...): ... else: G2.add_edge(...)` pair of
`merge_nodes` (lines 749-752 and 754-757): sum onto the existing edge, or add
a fresh edge (`add_edge` also inserts missing endpoints). -/
def addEdgeW (G : WGraph) (a b : String) (w : ℚ) : WGraph :=
  if hasEdgeW G a b then { G with edges := bumpWeight G.edges a b w }
  else
    let G2 := addNodeW (addNodeW G a) b
    { G2 with edges := G2.edges ++ [(a, b, w)] }

/-- One step of the edge-redirection loop of `merge_nodes` (lines 744-757). -/
def mergeEdgeStep (nodes : List String) (new_node : String) (G : WGraph)
    (e : String × String × ℚ) : WGraph :=
  if e.1 ∈ nodes then addEdgeW G e.2.1 new_node e.2.2
  else if e.2.1 ∈ nodes then addEdgeW G e.1 new_node e.2.2
  else G

/-- Embedding of `G.remove_node(v)`: drops the node and all incident edges;
raises `NetworkXError` (`none`) when the node is absent. -/
def removeNodeW (G : WGraph) (v : String) : Option WGraph :=
  if v ∈ G.nodes then
    some { nodes := G.nodes.filter (fun x => x ≠ v),
           edges := G.edges.filter (fun e => e.1 ≠ v ∧ e.2.1 ≠ v) }
  else none

/-- Embedding of the removal loop of `merge_nodes` (lines 760-761). -/
def removeNodesW (G : WGraph) : List String → Option WGraph
  | [] => some G
  | v :: vs =>
    match removeNodeW G v with
    | none => none
    | some G2 => removeNodesW G2 vs

/-- Embedding of `merge_nodes` (`network.py` lines 716-762): copy the graph,
add the merged node, redirect each edge of the original graph that is
incident to a member of `nodes`, then remove the member nodes. -/
def mergeNodes (G1 : WGraph) (nodes : List String) (new_node : String) :
    Option WGraph :=
  let G2 := addNodeW G1 new_node
  let G2 := G1.edges.foldl (mergeEdgeStep nodes new_node) G2
  removeNodesW G2 nodes

/-- Total stored weight between `a` and `b`: the sum of the weights of the
stored edges joining them (at most one in a `networkx` graph). -/
def weightBetween (es : List (String × String × ℚ)) (a b : String) : ℚ :=
  ((es.filter (fun e => edgeMatches e a b)).map (fun e => e.2.2)).sum

/-- Total weight of the edges joining a member of `nodes` to the external
node `x`. -/
def memberExternalWeight (es : List (String × String × ℚ))
    (nodes : List String) (x : String) : ℚ :=
  ((es.filter (fun e => (e.1 ∈ nodes ∧ e.2.1 = x) ∨
    (e.2.1 ∈ nodes ∧ e.1 = x))).map (fun e => e.2.2)).sum

/-- The contraction example of the spec: community `{2, 3}`, external node
`5`, edges `(2,5,w=3)`, `(3,5,w=4)` and the intra-community edge
`(2,3,w=9)`. -/
def exGraph : WGraph :=
  { nodes := ["2", "3", "5"],
    edges := [("2", "5", 3), ("3", "5", 4), ("2", "3", 9)] }

/-- The column labels `contigs_bin_network` assigns to the contig-data table
(`network.py` lines 646-659).  The adjacent Python string literals
`"Restriction_site" "core_comunitiy_id"` concatenate into the single label
`"Restriction_sitecore_comunitiy_id"`, exactly as in the source. -/
def contigsDataColumns : List String :=
  ["ID", "Name", "Size", "GC_content", "HiC_contact", "Shotgun_coverage",
   "Restriction_sitecore_comunitiy_id", "core_community_contigs",
   "core_community_size", "overlapping_comunitiy_id",
   "overlapping_community_contigs", "overlapping_community_size"]

/-- Position of a column label in a pandas frame; `df["label"]` raises
`KeyError` (`none`) when the label is absent. -/
def columnIndex? (cols : List String) (label : String) : Option ℕ :=
  List.indexOf? label cols

/-- Column `i` of a row table. -/
def tableColumn (rows : List (List String)) (i : ℕ) : List String :=
  rows.map (fun r => r.getD i "")

/-- Append `v` to the member list of key `k` (`bin_list[oc_id].append` with
the `KeyError` fallback creating the list, lines 688-691). -/
def assocAppend (bl : List (String × List String)) (k v : String) :
    List (String × List String) :=
  if bl.any (fun kv => kv.1 == k) then
    bl.map (fun kv => if kv.1 = k then (kv.1, kv.2 ++ [v]) else kv)
  else bl ++ [(k, [v])]

/-- Embedding of `contigs_network.subgraph(to_keep)` (line 706). -/
def subgraphW (G : WGraph) (keep : List String) : WGraph :=
  { nodes := G.nodes.filter (fun v => v ∈ keep),
    edges := G.edges.filter (fun e => e.1 ∈ keep ∧ e.2.1 ∈ keep) }

/-- The partition-contract-project body of `contigs_bin_network` (lines
682-706) on the extracted `id`, `oc_id` and `oc_length` columns: collect the
members of each community whose size exceeds `bin_size`, contract each into a
`bin_<id>` node, and keep only bin nodes and contigs of interest.  Reading
`contigs_data["oc_id"][contig_id - 1]` past the end of the column raises an
uncaught `KeyError` (`none`; the `try` catches only the `ValueError` that
`int(...)` raises on non-numeric text, which just skips the append).  With
the labels of `contigsDataColumns` the column lookups above this body fail,
so it is unreachable; it is modelled for completeness. -/
def contigsBinCore (idCol ocIdCol ocLenCol : List String) (network : WGraph)
    (interest : List String) (bin_size : ℕ) : Option WGraph :=
  let binList? : Option (List (String × List String)) :=
    idCol.foldl (fun bl? cid =>
      match bl? with
      | none => none
      | some bl =>
        if cid ∈ interest then some bl
        else
          match (pyNat? cid).bind (fun n => ocIdCol.get? (n - 1)),
                (pyNat? cid).bind (fun n => ocLenCol.get? (n - 1)) with
          | some oc_id, some oc_len =>
            match pyNat? oc_len with
            | some sz => if bin_size < sz then some (assocAppend bl oc_id cid)
                         else some bl
            | none => some bl
          | _, _ => none) (some [])
  match binList? with
  | none => none
  | some binList =>
    let keep := interest ++ binList.map (fun b => "bin_" ++ b.1)
    let merged? := binList.foldl (fun G? b =>
      match G? with
      | none => none
      | some G => mergeNodes G b.2 ("bin_" ++ b.1)) (some network)
    match merged? with
    | none => none
    | some G => some (subgraphW G keep)

/-- Embedding of `contigs_bin_network` (`network.py` lines 606-713): read the
contig-data table and assign it the labels of `contigsDataColumns` (pandas
refuses the assignment unless the label list matches the table width, line
646), resolve the contigs of interest by merging on column `"name"` and
reading column `"id"` (lines 667-678), then run the partition loop over
columns `"id"`, `"oc_id"` and `"oc_length"` (lines 682-693).  None of the
labels `"name"`, `"id"`, `"oc_id"`, `"oc_length"` is ever assigned, so these
pandas lookups raise `KeyError` (`none`). -/
def contigsBinNetwork (rows : List (List String)) (network : WGraph)
    (contigs_of_interest : Option (List String)) (bin_size : ℕ) :
    Option WGraph :=
  if rows.all (fun r => r.length = contigsDataColumns.length) then
    match (match contigs_of_interest with
           | none => some []
           | some names =>
             match columnIndex? contigsDataColumns "name",
                   columnIndex? contigsDataColumns "id" with
             | some ni, some ii =>
               some (rows.filterMap (fun r =>
                 if r.getD ni "" ∈ names then r.get? ii else none))
             | _, _ => none) with
    | none => none
    | some interest =>
      match columnIndex? contigsDataColumns "id",
            columnIndex? contigsDataColumns "oc_id",
            columnIndex? contigsDataColumns "oc_length" with
      | some idI, some ocI, some olI =>
        contigsBinCore (tableColumn rows idI) (tableColumn rows ocI)
          (tableColumn rows olI) network interest bin_size
      | _, _, _ => none
  else none

/-- C7: under the `abundance` strategy `normalize_pair` returns weight `0`
whenever either endpoint's coverage is `0`, and under `theoritical_hit` it
returns `0` whenever its factor is `0`, instead of raising a division error;
otherwise the `abundance` weight equals `raw_count / sqrt(covA * covB)`. -/
theorem normalize_pair_zero_guard (contig_data : String → ContigNumeric)
    (p : String × String) (n_occ : ℕ) :
    ((contig_data p.1).coverage = 0 ∨ (contig_data p.2).coverage = 0 →
      normalizePair contig_data p n_occ "abundance" = some 0) ∧
    (Real.sqrt (((contig_data p.1).coverage : ℝ) * 10 *
        Real.sqrt (((contig_data p.1).length : ℝ) * ((contig_data p.1).rs : ℝ)) *
        ((contig_data p.2).coverage : ℝ) * 10 *
        Real.sqrt (((contig_data p.2).length : ℝ) * ((contig_data p.2).rs : ℝ))) = 0 →
      normalizePair contig_data p n_occ "theoritical_hit" = some 0) ∧
    (Real.sqrt (((contig_data p.1).coverage : ℝ) * ((contig_data p.2).coverage : ℝ)) ≠ 0 →
      normalizePair contig_data p n_occ "abundance" =
        some (n_occ / Real.sqrt (((contig_data p.1).coverage : ℝ) *
          ((contig_data p.2).coverage : ℝ)))) := by
  refine ⟨fun h => ?_, fun h => ?_, fun h => ?_⟩
  · have hz : Real.sqrt (((contig_data p.1).coverage : ℝ) *
        ((contig_data p.2).coverage : ℝ)) = 0 := by
      rcases h with h | h <;> rw [h] <;> simp
    simp [normalizePair, hz]
  · simp [normalizePair, h]
  · simp [normalizePair, h]

/-- Witness for C7 at concrete inputs: a zero-coverage endpoint yields weight
`0`, and with coverages `9` and `4` the weight is `3 / sqrt(9 * 4)`. -/
theorem normalize_pair_zero_guard_witness :
    normalizePair cdCovZero ("a", "b") 5 "abundance" = some 0 ∧
    normalizePair cdCovPos ("a", "b") 3 "abundance" =
      some ((3 : ℕ) / Real.sqrt (((cdCovPos "a").coverage : ℝ) *
        ((cdCovPos "b").coverage : ℝ))) :=
  ⟨(normalize_pair_zero_guard cdCovZero ("a", "b") 5).1 (Or.inl (by simp [cdCovZero])),
   (normalize_pair_zero_guard cdCovPos ("a", "b") 3).2.2 (by
      have ha : cdCovPos "a" = ⟨1, 100, 10, 9, 1⟩ := by simp [cdCovPos]
      have hb : cdCovPos "b" = ⟨2, 50, 4, 4, 1⟩ := by simp [cdCovPos]
      simp only [ha, hb]
      exact Real.sqrt_ne_zero'.mpr (by norm_num))⟩

/-- C3: on an empty retained canonical-pair stream, `compute_network` does not
emit an empty edge list but crashes: `prev_pair = next(pairs_reader)` raises
an uncaught `StopIteration` (line 215).  The claimed no-crash behavior fails;
the model returns `none` (abort) for every dictionary and normalization. -/
theorem compute_network_empty_stream_crashes
    (contig_data : String → ContigNumeric) (normalization : String) :
    computeNetwork contig_data normalization [] = none := rfl

/-- C2: on a stream consisting of a single pair line the final flush reads the
Python local `curr_pair`, which the loop body never assigned, so
`compute_network` raises `UnboundLocalError` (line 267) instead of emitting
the one group of weight 1; the model returns `none` for every dictionary and
normalization. -/
theorem compute_network_single_line_crashes
    (contig_data : String → ContigNumeric) (normalization : String) :
    computeNetwork contig_data normalization [("a", "b")] = none := rfl

theorem pairLE_antisymm {a b : String × String} (h1 : pairLE a b)
    (h2 : pairLE b a) : a = b := by
  rcases h1 with h1 | ⟨e1, l1⟩ <;> rcases h2 with h2 | ⟨e2, l2⟩
  · exact absurd h2 (lt_asymm h1)
  · exact absurd (e2 ▸ h1) (lt_irrefl _)
  · exact absurd (e1 ▸ h2) (lt_irrefl _)
  · exact Prod.ext e1 (le_antisymm l1 l2)

theorem rleFrom_fst_mem :
    ∀ (l : List (String × String)) (p : String × String) (n : ℕ)
      (g : (String × String) × ℕ), g ∈ rleFrom p n l → g.1 ∈ p :: l := by
  intro l
  induction l with
  | nil =>
    intro p n g hg
    simp only [rleFrom, List.mem_singleton] at hg
    simp [hg]
  | cons q rest ih =>
    intro p n g hg
    rw [rleFrom] at hg
    by_cases hpq : p = q
    · rw [if_pos hpq] at hg
      have := ih p (n + 1) g hg
      rcases List.mem_cons.mp this with h | h
      · simp [h]
      · simp [List.mem_cons, h]
    · rw [if_neg hpq] at hg
      rcases List.mem_cons.mp hg with h | h
      · simp [h]
      · have := ih q 1 g h
        rcases List.mem_cons.mp this with h2 | h2 <;> simp [List.mem_cons, h2]

theorem rleFrom_sum :
    ∀ (l : List (String × String)) (p : String × String) (n : ℕ),
      ((rleFrom p n l).map (fun g => g.2)).sum = n + l.length := by
  intro l
  induction l with
  | nil => intro p n; simp [rleFrom]
  | cons q rest ih =>
    intro p n
    rw [rleFrom]
    by_cases hpq : p = q
    · rw [if_pos hpq, ih]
      simp; omega
    · rw [if_neg hpq]
      simp only [List.map_cons, List.sum_cons, ih]
      simp; omega

theorem rleFrom_count :
    ∀ (l : List (String × String)) (p : String × String) (n : ℕ),
      List.Sorted pairLE (p :: l) →
      ∀ g ∈ rleFrom p n l,
        g.2 = if g.1 = p then n + l.count p else l.count g.1 := by
  intro l
  induction l with
  | nil =>
    intro p n _ g hg
    simp only [rleFrom, List.mem_singleton] at hg
    simp [hg]
  | cons q rest ih =>
    intro p n hs g hg
    obtain ⟨hp, hql⟩ := List.sorted_cons.mp hs
    obtain ⟨hq, hrest⟩ := List.sorted_cons.mp hql
    rw [rleFrom] at hg
    by_cases hpq : p = q
    · rw [if_pos hpq] at hg
      have hs' : List.Sorted pairLE (p :: rest) :=
        List.sorted_cons.mpr ⟨fun x hx => hp x (List.mem_cons_of_mem _ hx), hrest⟩
      have := ih p (n + 1) hs' g hg
      by_cases hgp : g.1 = p
      · rw [if_pos hgp] at this
        rw [if_pos hgp, this, List.count_cons]
        subst hpq
        simp
        omega
      · rw [if_neg hgp] at this
        rw [if_neg hgp, this, List.count_cons]
        subst hpq
        simp [beq_iff_eq]
        intro h
        exact absurd h.symm hgp
    · rw [if_neg hpq] at hg
      have hpnot : p ∉ q :: rest := by
        intro hmem
        rcases List.mem_cons.mp hmem with h | h
        · exact hpq h
        · exact hpq (pairLE_antisymm (hp q (List.mem_cons_self q rest)) (hq p h))
      rcases List.mem_cons.mp hg with h | h
      · rw [h]
        simp [List.count_eq_zero.mpr hpnot]
      · have hmem := rleFrom_fst_mem rest q 1 g h
        have hgnp : g.1 ≠ p := fun e => hpnot (e ▸ hmem)
        have := ih q 1 hql g h
        rw [if_neg hgnp, List.count_cons]
        by_cases hgq : g.1 = q
        · rw [if_pos hgq] at this
          rw [this]
          simp [hgq]
          omega
        · rw [if_neg hgq] at this
          rw [this]
          simp [beq_iff_eq]
          intro h2
          exact absurd h2.symm hgq

theorem computeNetworkLoop_raw_counts (contig_data : String → ContigNumeric) :
    ∀ (rest : List (String × String)) (prev_pair : String × String)
      (cp : Option (String × String)) (n_occ : ℕ) (net : List (ℕ × ℕ × ℝ)),
      0 < n_occ → (cp = some prev_pair ∨ rest ≠ []) →
      computeNetworkLoop contig_data "None" rest prev_pair cp n_occ net =
        some (net ++ (rleFrom prev_pair n_occ rest).map
          (fun g => ((contig_data g.1.1).id, (contig_data g.1.2).id,
            (g.2 : ℝ)))) := by
  intro rest
  induction rest with
  | nil =>
    intro prev cp n net hn hcp
    rcases hcp with h | h
    · subst h
      simp [computeNetworkLoop, rleFrom]
    · exact absurd rfl h
  | cons pair rest ih =>
    intro prev cp n net hn hcp
    by_cases hpp : prev = pair
    · simp only [computeNetworkLoop]
      rw [if_pos hpp]
      rw [ih prev (some pair) (n + 1) net (by omega) (Or.inl (by rw [hpp]))]
      rw [rleFrom, if_pos hpp]
    · simp only [computeNetworkLoop]
      rw [if_neg hpp, if_pos hn]
      have heff : (if ("None" : String) ≠ "None"
          then normalizePair contig_data prev n "None"
          else some ((n : ℕ) : ℝ)) = some ((n : ℕ) : ℝ) := by simp
      rw [heff]
      show computeNetworkLoop contig_data "None" rest pair (some pair) 1
          (net ++ [((contig_data prev.1).id, (contig_data prev.2).id,
            ((n : ℕ) : ℝ))]) = _
      rw [ih pair (some pair) 1 _ one_pos (Or.inl rfl)]
      rw [rleFrom, if_neg hpp]
      simp [List.append_assoc]

/-- C1 (amended): with normalization disabled, for every canonical-pair input
with at least two retained pair records, `compute_network` emits one edge per
group of the sorted stream, each edge's weight is the raw integer occurrence
count of its pair in the input, and the weights sum to the number of retained
records.  (With zero or one record the pass crashes and emits nothing, see the
counterexample and C2/C3.) -/
theorem compute_network_weight_sum (contig_data : String → ContigNumeric)
    (pairs : List (String × String)) (h2 : 2 ≤ pairs.length) :
    ∃ net, computeNetwork contig_data "None" pairs = some net ∧
      net = (pairGroups pairs).map
        (fun g => ((contig_data g.1.1).id, (contig_data g.1.2).id, (g.2 : ℝ))) ∧
      (net.map (fun e => e.2.2)).sum = (pairs.length : ℝ) ∧
      ∀ g ∈ pairGroups pairs, g.2 = pairs.count g.1 := by
  have hperm := List.perm_insertionSort pairLE pairs
  have hlen : (sortPairs pairs).length = pairs.length := hperm.length_eq
  obtain ⟨q, rest, hqrest⟩ : ∃ q rest, sortPairs pairs = q :: rest := by
    cases hsp : sortPairs pairs with
    | nil => rw [hsp] at hlen; simp at hlen; omega
    | cons q rest => exact ⟨q, rest, rfl⟩
  have hrestne : rest ≠ [] := by
    intro h
    rw [h] at hqrest
    rw [hqrest] at hlen
    simp at hlen
    omega
  have hgroups : pairGroups pairs = rleFrom q 1 rest := by
    rw [pairGroups, hqrest]
  have hnet : computeNetwork contig_data "None" pairs =
      some ((rleFrom q 1 rest).map
        (fun g => ((contig_data g.1.1).id, (contig_data g.1.2).id,
          (g.2 : ℝ)))) := by
    rw [computeNetwork, hqrest]
    show computeNetworkLoop contig_data "None" rest q none 1 [] = _
    rw [computeNetworkLoop_raw_counts contig_data rest q none 1 [] one_pos
      (Or.inr hrestne)]
    simp
  refine ⟨_, hnet, by rw [hgroups], ?_, ?_⟩
  · rw [List.map_map]
    have hcomp : ((fun e : ℕ × ℕ × ℝ => e.2.2) ∘
        (fun g : (String × String) × ℕ =>
          ((contig_data g.1.1).id, (contig_data g.1.2).id, (g.2 : ℝ)))) =
        (fun g : (String × String) × ℕ => ((g.2 : ℕ) : ℝ)) := rfl
    rw [hcomp]
    have : (rleFrom q 1 rest).map (fun g => ((g.2 : ℕ) : ℝ)) =
        ((rleFrom q 1 rest).map (fun g => g.2)).map (fun m : ℕ => (m : ℝ)) := by
      rw [List.map_map]
      rfl
    rw [this, ← Nat.cast_list_sum, rleFrom_sum rest q 1]
    have : pairs.length = 1 + rest.length := by
      rw [← hlen, hqrest]
      simp
      omega
    rw [this]
  · intro g hg
    rw [hgroups] at hg
    have hsorted : List.Sorted pairLE (q :: rest) := by
      have := List.sorted_insertionSort pairLE pairs
      rw [show List.insertionSort pairLE pairs = sortPairs pairs from rfl,
        hqrest] at this
      exact this
    have hcount := rleFrom_count rest q 1 hsorted g hg
    have htrans : pairs.count g.1 = (q :: rest).count g.1 := by
      rw [← hqrest]
      show List.countP (fun x => x == g.1) pairs =
        List.countP (fun x => x == g.1) (sortPairs pairs)
      exact (hperm.countP_eq (fun x => x == g.1)).symm
    rw [htrans, List.count_cons]
    by_cases hgq : g.1 = q
    · rw [if_pos hgq] at hcount
      rw [hcount]
      simp [hgq]
      omega
    · rw [if_neg hgq] at hcount
      rw [hcount]
      simp [beq_iff_eq]
      intro h
      exact absurd h.symm hgq

/-- Counterexample to C1 as stated: on the single retained record
`("x", "y")` the aggregation pass crashes (`curr_pair` is never assigned, so
the final flush raises `UnboundLocalError`) and emits no edge list at all, so
no emitted weights summing to the one retained record exist. -/
theorem compute_network_weight_sum_single_fails :
    ¬ ∃ net, computeNetwork cdCovZero "None" [("x", "y")] = some net ∧
      (net.map (fun e => e.2.2)).sum =
        (([("x", "y")] : List (String × String)).length : ℝ) := by
  have h : computeNetwork cdCovZero "None" [("x", "y")] = none := rfl
  simp [h]

/-- Witness for the amended C1 on the concrete three-record stream
`[(a,b), (a,b), (a,c)]`. -/
theorem compute_network_weight_sum_witness :
    2 ≤ ([("a", "b"), ("a", "b"), ("a", "c")] : List (String × String)).length ∧
    ∃ net, computeNetwork cdCovZero "None"
        [("a", "b"), ("a", "b"), ("a", "c")] = some net ∧
      net = (pairGroups [("a", "b"), ("a", "b"), ("a", "c")]).map
        (fun g => ((cdCovZero g.1.1).id, (cdCovZero g.1.2).id, (g.2 : ℝ))) ∧
      (net.map (fun e => e.2.2)).sum =
        (([("a", "b"), ("a", "b"), ("a", "c")] :
          List (String × String)).length : ℝ) ∧
      ∀ g ∈ pairGroups [("a", "b"), ("a", "b"), ("a", "c")],
        g.2 = ([("a", "b"), ("a", "b"), ("a", "c")] :
          List (String × String)).count g.1 :=
  ⟨by decide, compute_network_weight_sum cdCovZero _ (by decide)⟩

theorem bumpHit_hit (contig_data : String → ContigNumeric) (m n : String) :
    ((bumpHit contig_data m) n).hit =
      (contig_data n).hit + (if n = m then 1 else 0) := by
  simp only [bumpHit, Function.update_apply]
  by_cases h : n = m
  · simp [h]
  · simp [h]

/-- C4: each alignment record increments the hit counters of both named
contigs (a self pair increments the same contig's counter twice), and is
emitted canonically: unchanged when self-contacts are enabled and the ids are
equal, lower-id contig first when the ids differ, and dropped (while still
counted) when the ids are equal and self-contacts are disabled. -/
theorem precompute_network_record_step (contig_data : String → ContigNumeric)
    (self_contacts : Bool) (p : String × String) (name : String) :
    (updateHits contig_data p name).hit = (contig_data name).hit
      + (if name = p.1 then 1 else 0) + (if name = p.2 then 1 else 0) ∧
    (collectPair contig_data self_contacts p).1 =
      (if (contig_data p.1).id = (contig_data p.2).id then
        (if self_contacts then some p else none)
       else if (contig_data p.1).id < (contig_data p.2).id then some (p.1, p.2)
       else some (p.2, p.1)) := by
  constructor
  · calc (updateHits contig_data p name).hit
        = ((bumpHit contig_data p.1) name).hit + (if name = p.2 then 1 else 0) :=
          bumpHit_hit _ _ _
      _ = (contig_data name).hit + (if name = p.1 then 1 else 0)
            + (if name = p.2 then 1 else 0) := by rw [bumpHit_hit]
  · simp only [collectPair]
    by_cases heq : (contig_data p.1).id = (contig_data p.2).id
    · by_cases hsc : self_contacts
      · simp [heq, hsc]
      · simp [heq, hsc]
    · by_cases hlt : (contig_data p.1).id < (contig_data p.2).id
      · simp [heq, hlt]
      · have hgt : (contig_data p.2).id < (contig_data p.1).id := by omega
        simp [heq, hlt, hgt]

theorem processAlignmentFile_all_count (self_contacts : Bool) :
    ∀ (f : List (String × String)) (contig_data : String → ContigNumeric)
      (pre_net : List (String × String)) (all_temp inter_temp : ℕ),
      (processAlignmentFile self_contacts f contig_data pre_net all_temp
        inter_temp).2.2.1 = all_temp + f.length := by
  intro f
  induction f with
  | nil => intro cd pre a i; simp [processAlignmentFile]
  | cons p pairs ih =>
    intro cd pre a i
    rw [processAlignmentFile, ih]
    simp
    omega

theorem precomputeNetworkLoop_empty_file_aborts (self_contacts : Bool) :
    ∀ (files : List (List (String × String)))
      (contig_data : String → ContigNumeric)
      (pre_net : List (String × String)) (all_contacts inter_contacts : ℕ),
      (∃ f ∈ files, f = []) →
      precomputeNetworkLoop self_contacts files contig_data pre_net
        all_contacts inter_contacts = none := by
  intro files
  induction files with
  | nil =>
    intro cd pre a i h
    obtain ⟨f, hf, _⟩ := h
    exact absurd hf (List.not_mem_nil f)
  | cons f fs ih =>
    intro cd pre a i h
    rw [precomputeNetworkLoop]
    by_cases hz : (processAlignmentFile self_contacts f cd pre 0 0).2.2.1 = 0
    · rw [if_pos hz]
    · rw [if_neg hz]
      apply ih
      obtain ⟨g, hg, hge⟩ := h
      rcases List.mem_cons.mp hg with h1 | h1
      · exfalso
        apply hz
        have hfe : f = [] := h1 ▸ hge
        rw [processAlignmentFile_all_count, hfe]
        simp
      · exact ⟨g, h1, hge⟩

/-- C10: whenever one of the alignment sources holds zero records,
`precompute_network` aborts: the per-file informational 3D ratio
`inter_contacts_temp / all_contacts_temp` (line 533) divides by zero for that
source, raising an uncaught `ZeroDivisionError`. -/
theorem precompute_network_empty_source_aborts
    (aligment_files : List (List (String × String)))
    (contig_data : String → ContigNumeric) (self_contacts : Bool)
    (h : ∃ f ∈ aligment_files, f = []) :
    precomputeNetwork aligment_files contig_data self_contacts = none :=
  precomputeNetworkLoop_empty_file_aborts self_contacts aligment_files
    contig_data [] 0 0 h

/-- Witness for C10: a run with one record in the first source and an empty
second source aborts. -/
theorem precompute_network_empty_source_aborts_witness :
    (∃ f ∈ ([[("a", "b")], []] : List (List (String × String))), f = []) ∧
    precomputeNetwork [[("a", "b")], []] cdCovZero true = none :=
  ⟨⟨[], by simp, rfl⟩,
   precompute_network_empty_source_aborts [[("a", "b")], []] cdCovZero true
     ⟨[], by simp, rfl⟩⟩

theorem dictInsert_of_fresh (d : List (String × ContigEntry)) (k : String)
    (v : ContigEntry) (h : ∀ kv ∈ d, kv.1 ≠ k) :
    dictInsert d k v = d ++ [(k, v)] := by
  rw [dictInsert, if_neg]
  simp only [List.any_eq_true, beq_iff_eq, not_exists]
  intro kv hkv
  exact h kv hkv.1 hkv.2

theorem createContigDataNoDepth_maps (gcOf : String → ℚ) (rsOf : String → ℕ)
    (enzyme : Bool) :
    ∀ (assembly : List FastaContig) (global_id : ℕ)
      (acc : List (String × ContigEntry)),
      (assembly.map FastaContig.name).Nodup →
      (∀ c ∈ assembly, ∀ kv ∈ acc, kv.1 ≠ c.name) →
      (createContigDataNoDepth gcOf rsOf enzyme assembly global_id acc).map
          Prod.fst = acc.map Prod.fst ++ assembly.map FastaContig.name ∧
      (createContigDataNoDepth gcOf rsOf enzyme assembly global_id acc).map
          (fun e => e.2.id) =
        acc.map (fun e => e.2.id) ++ List.range' global_id assembly.length := by
  intro assembly
  induction assembly with
  | nil =>
    intro gid acc _ _
    simp [createContigDataNoDepth]
  | cons contig contigs ih =>
    intro gid acc hnodup hdis
    rw [createContigDataNoDepth]
    rw [dictInsert_of_fresh _ _ _
      (hdis contig (List.mem_cons_self contig contigs))]
    have hnodup' : (contigs.map FastaContig.name).Nodup := by
      simp only [List.map_cons, List.nodup_cons] at hnodup
      exact hnodup.2
    have hhead : contig.name ∉ contigs.map FastaContig.name := by
      simp only [List.map_cons, List.nodup_cons] at hnodup
      exact hnodup.1
    have hdis' : ∀ c ∈ contigs,
        ∀ kv ∈ acc ++ [(contig.name,
          { id := gid, length := contig.seq.length, gc := gcOf contig.seq,
            hit := 0, coverage := none,
            rs := if enzyme then some (rsOf contig.seq + 1) else none })],
        kv.1 ≠ c.name := by
      intro c hc kv hkv
      rcases List.mem_append.mp hkv with h | h
      · exact hdis c (List.mem_cons_of_mem _ hc) kv h
      · rcases List.mem_singleton.mp h with rfl
        intro he
        exact hhead (by
          simp only [List.mem_map]
          exact ⟨c, hc, he.symm⟩)
    obtain ⟨h1, h2⟩ := ih (gid + 1) _ hnodup' hdis'
    constructor
    · rw [h1]
      simp [List.append_assoc]
    · rw [h2]
      simp only [List.map_append, List.map_cons, List.length_cons,
        List.range'_succ]
      simp [List.append_assoc]

/-- C6: for an assembly with distinct contig names, `create_contig_data`
assigns ids forming a bijection from contig names onto `1..N`: the registry
lists the contig names in assembly iteration order and the i-th contig
receives id `i`. -/
theorem create_contig_data_id_bijection (gcOf : String → ℚ)
    (rsOf : String → ℕ) (enzyme : Bool) (assembly : List FastaContig)
    (hnodup : (assembly.map FastaContig.name).Nodup) :
    ∃ reg, createContigData gcOf rsOf enzyme assembly none = some reg ∧
      reg.map Prod.fst = assembly.map FastaContig.name ∧
      reg.map (fun e => e.2.id) = List.range' 1 assembly.length := by
  obtain ⟨h1, h2⟩ := createContigDataNoDepth_maps gcOf rsOf enzyme assembly 1
    [] hnodup (by intro c _ kv hkv; exact absurd hkv (List.not_mem_nil kv))
  exact ⟨_, rfl, by simpa using h1, by simpa using h2⟩

/-- Witness for C6 on a concrete two-contig assembly. -/
theorem create_contig_data_id_bijection_witness :
    (([⟨"c1", "AC"⟩, ⟨"c2", "GT"⟩] : List FastaContig).map
      FastaContig.name).Nodup ∧
    ∃ reg, createContigData (fun _ => 0) (fun _ => 0) false
        [⟨"c1", "AC"⟩, ⟨"c2", "GT"⟩] none = some reg ∧
      reg.map Prod.fst =
        ([⟨"c1", "AC"⟩, ⟨"c2", "GT"⟩] : List FastaContig).map
          FastaContig.name ∧
      reg.map (fun e => e.2.id) =
        List.range' 1 ([⟨"c1", "AC"⟩, ⟨"c2", "GT"⟩] :
          List FastaContig).length :=
  ⟨by decide, create_contig_data_id_bijection (fun _ => 0) (fun _ => 0) false
    [⟨"c1", "AC"⟩, ⟨"c2", "GT"⟩] (by decide)⟩

/-- C9 (amended): a depth file with fewer data rows than the assembly has
contigs makes `create_contig_data` fail fatally mid-run — reading past the
end of the file yields the row `[""]` and `line[1]` raises `IndexError`.  (A
depth file with surplus rows is silently accepted, see the
counterexample.) -/
theorem create_contig_data_short_depth_aborts (gcOf : String → ℚ)
    (rsOf : String → ℕ) (enzyme : Bool) :
    ∀ (assembly : List FastaContig) (rows : List (List String)),
      rows.length < assembly.length →
      createContigData gcOf rsOf enzyme assembly (some rows) = none := by
  have key : ∀ (assembly : List FastaContig) (rows : List (List String))
      (gid : ℕ) (acc : List (String × ContigEntry)),
      rows.length < assembly.length →
      createContigDataDepth gcOf rsOf enzyme assembly rows gid acc = none := by
    intro assembly
    induction assembly with
    | nil =>
      intro rows gid acc h
      simp at h
    | cons contig contigs ih =>
      intro rows gid acc h
      cases rows with
      | nil => simp [createContigDataDepth]
      | cons rr rs =>
        rw [createContigDataDepth]
        simp only [List.headD_cons, List.tail_cons]
        split
        · split
          · apply ih
            simp only [List.length_cons] at h
            omega
          · rfl
        · rfl
  intro assembly rows h
  exact key assembly rows 1 [] h

/-- Witness for the amended C9: one contig, zero depth data rows. -/
theorem create_contig_data_short_depth_aborts_witness :
    ([] : List (List String)).length <
      ([⟨"c1", "ACGT"⟩] : List FastaContig).length ∧
    createContigData (fun _ => 0) (fun _ => 0) false [⟨"c1", "ACGT"⟩]
      (some []) = none :=
  ⟨by decide, create_contig_data_short_depth_aborts (fun _ => 0) (fun _ => 0)
    false [⟨"c1", "ACGT"⟩] [] (by decide)⟩

/-- Counterexample to C9 as stated: a depth file whose number of data rows
differs from the contig count — here two rows for one contig — is not
detected; `create_contig_data` silently builds the registry from the first
row and never reads the surplus. -/
theorem create_contig_data_surplus_depth_rows_builds :
    ([["c1", "100", "2"], ["c2", "50", "3"]] : List (List String)).length ≠
      ([⟨"c1", "ACGT"⟩] : List FastaContig).length ∧
    (createContigData (fun _ => 0) (fun _ => 0) false [⟨"c1", "ACGT"⟩]
      (some [["c1", "100", "2"], ["c2", "50", "3"]])).isSome = true :=
  ⟨by decide, rfl⟩

theorem weightBetween_cons (e : String × String × ℚ)
    (es : List (String × String × ℚ)) (c d : String) :
    weightBetween (e :: es) c d =
      (if edgeMatches e c d then e.2.2 else 0) + weightBetween es c d := by
  rw [weightBetween, List.filter_cons]
  by_cases h : edgeMatches e c d
  · simp [h, weightBetween]
  · simp [h, weightBetween]

theorem weightBetween_append_single (es : List (String × String × ℚ))
    (e : String × String × ℚ) (c d : String) :
    weightBetween (es ++ [e]) c d =
      weightBetween es c d + (if edgeMatches e c d then e.2.2 else 0) := by
  rw [weightBetween, List.filter_append, List.map_append, List.sum_append]
  rw [List.filter_cons]
  by_cases h : edgeMatches e c d
  · simp [h, weightBetween]
  · simp [h, weightBetween]

theorem weightBetween_eq_zero (es : List (String × String × ℚ))
    (c d : String) (h : ∀ e ∈ es, ¬ edgeMatches e c d) :
    weightBetween es c d = 0 := by
  rw [weightBetween, List.filter_eq_nil_iff.mpr]
  · simp
  · intro e he
    simp [h e he]

theorem addNodeW_edges (G : WGraph) (v : String) :
    (addNodeW G v).edges = G.edges := by
  rw [addNodeW]
  split <;> rfl

theorem addNodeW_mem (G : WGraph) (u v : String) :
    v ∈ (addNodeW G u).nodes ↔ v ∈ G.nodes ∨ v = u := by
  rw [addNodeW]
  split
  · rename_i h
    constructor
    · exact Or.inl
    · rintro (hv | rfl)
      · exact hv
      · exact h
  · simp

theorem weightBetween_bumpWeight (a b : String) (w : ℚ) (c d : String) :
    ∀ es : List (String × String × ℚ), (∃ e ∈ es, edgeMatches e a b) →
    weightBetween (bumpWeight es a b w) c d = weightBetween es c d +
      (if (a = c ∧ b = d) ∨ (a = d ∧ b = c) then w else 0) := by
  intro es
  induction es with
  | nil =>
    intro h
    obtain ⟨e, he, _⟩ := h
    exact absurd he (List.not_mem_nil e)
  | cons e es ih =>
    intro h
    rw [bumpWeight]
    by_cases hm : edgeMatches e a b
    · rw [if_pos hm]
      rw [weightBetween_cons, weightBetween_cons]
      have hiff : edgeMatches (e.1, e.2.1, e.2.2 + w) c d ↔ edgeMatches e c d := by
        rw [edgeMatches, edgeMatches]
      by_cases hcd : edgeMatches e c d
      · have hsame : (a = c ∧ b = d) ∨ (a = d ∧ b = c) := by
          rcases hm with ⟨h1, h2⟩ | ⟨h1, h2⟩ <;>
            rcases hcd with ⟨h3, h4⟩ | ⟨h3, h4⟩
          · exact Or.inl ⟨h1.symm.trans h3, h2.symm.trans h4⟩
          · exact Or.inr ⟨h1.symm.trans h3, h2.symm.trans h4⟩
          · exact Or.inr ⟨h2.symm.trans h4, h1.symm.trans h3⟩
          · exact Or.inl ⟨h2.symm.trans h4, h1.symm.trans h3⟩
        rw [if_pos (hiff.mpr hcd), if_pos hcd, if_pos hsame]
        ring
      · have hnsame : ¬ ((a = c ∧ b = d) ∨ (a = d ∧ b = c)) := by
          intro hsame
          apply hcd
          rcases hm with ⟨h1, h2⟩ | ⟨h1, h2⟩ <;>
            rcases hsame with ⟨h3, h4⟩ | ⟨h3, h4⟩
          · exact Or.inl ⟨h1.trans h3, h2.trans h4⟩
          · exact Or.inr ⟨h1.trans h3, h2.trans h4⟩
          · exact Or.inr ⟨h1.trans h4, h2.trans h3⟩
          · exact Or.inl ⟨h1.trans h4, h2.trans h3⟩
        rw [if_neg (fun hc => hcd (hiff.mp hc)), if_neg hcd, if_neg hnsame]
        ring
    · rw [if_neg hm]
      have h' : ∃ x ∈ es, edgeMatches x a b := by
        obtain ⟨x, hx, hxm⟩ := h
        rcases List.mem_cons.mp hx with rfl | hx'
        · exact absurd hxm hm
        · exact ⟨x, hx', hxm⟩
      rw [weightBetween_cons, weightBetween_cons, ih h']
      ring

theorem weightBetween_addEdgeW (G : WGraph) (a b : String) (w : ℚ)
    (c d : String) :
    weightBetween (addEdgeW G a b w).edges c d = weightBetween G.edges c d +
      (if (a = c ∧ b = d) ∨ (a = d ∧ b = c) then w else 0) := by
  rw [addEdgeW]
  by_cases hh : hasEdgeW G a b
  · rw [if_pos hh]
    exact weightBetween_bumpWeight a b w c d G.edges hh
  · rw [if_neg hh]
    simp only [addNodeW_edges]
    rw [weightBetween_append_single]
    have : edgeMatches (a, b, w) c d ↔ (a = c ∧ b = d) ∨ (a = d ∧ b = c) := by
      rw [edgeMatches]
    by_cases hm : (a = c ∧ b = d) ∨ (a = d ∧ b = c)
    · rw [if_pos (this.mpr hm), if_pos hm]
    · rw [if_neg (fun hc => hm (this.mp hc)), if_neg hm]

theorem addEdgeW_mem_of_mem (G : WGraph) (a b : String) (w : ℚ) (v : String)
    (h : v ∈ G.nodes) : v ∈ (addEdgeW G a b w).nodes := by
  rw [addEdgeW]
  by_cases hh : hasEdgeW G a b
  · rw [if_pos hh]
    exact h
  · rw [if_neg hh]
    show v ∈ (addNodeW (addNodeW G a) b).nodes
    exact (addNodeW_mem _ _ _).mpr (Or.inl ((addNodeW_mem _ _ _).mpr (Or.inl h)))

theorem mem_of_addEdgeW_mem (G : WGraph) (a b : String) (w : ℚ) (v : String)
    (h : v ∈ (addEdgeW G a b w).nodes) : v ∈ G.nodes ∨ v = a ∨ v = b := by
  rw [addEdgeW] at h
  by_cases hh : hasEdgeW G a b
  · rw [if_pos hh] at h
    exact Or.inl h
  · rw [if_neg hh] at h
    have h' : v ∈ (addNodeW (addNodeW G a) b).nodes := h
    rcases (addNodeW_mem _ _ _).mp h' with h2 | h2
    · rcases (addNodeW_mem _ _ _).mp h2 with h3 | h3
      · exact Or.inl h3
      · exact Or.inr (Or.inl h3)
    · exact Or.inr (Or.inr h2)

theorem mergeFold_nodes_mem (G1 : WGraph) (ns : List String) (nn : String) :
    ∀ (es : List (String × String × ℚ)) (G : WGraph),
      (∀ e ∈ es, e.1 ∈ G1.nodes ∧ e.2.1 ∈ G1.nodes) →
      (∀ v, v ∈ G.nodes ↔ v ∈ G1.nodes ∨ v = nn) →
      ∀ v, v ∈ (es.foldl (mergeEdgeStep ns nn) G).nodes ↔
        v ∈ G1.nodes ∨ v = nn := by
  intro es
  induction es with
  | nil =>
    intro G _ hG v
    simpa using hG v
  | cons e es ih =>
    intro G hes hG v
    rw [List.foldl_cons]
    refine ih (mergeEdgeStep ns nn G e)
      (fun x hx => hes x (List.mem_cons_of_mem _ hx)) ?_ v
    intro u
    rw [mergeEdgeStep]
    obtain ⟨he1, he2⟩ := hes e (List.mem_cons_self e es)
    by_cases h1 : e.1 ∈ ns
    · rw [if_pos h1]
      constructor
      · intro hu
        rcases mem_of_addEdgeW_mem G e.2.1 nn e.2.2 u hu with h | h | h
        · exact (hG u).mp h
        · exact Or.inl (by rw [h]; exact he2)
        · exact Or.inr h
      · intro hu
        exact addEdgeW_mem_of_mem _ _ _ _ _ ((hG u).mpr hu)
    · rw [if_neg h1]
      by_cases h2 : e.2.1 ∈ ns
      · rw [if_pos h2]
        constructor
        · intro hu
          rcases mem_of_addEdgeW_mem G e.1 nn e.2.2 u hu with h | h | h
          · exact (hG u).mp h
          · exact Or.inl (by rw [h]; exact he1)
          · exact Or.inr h
        · intro hu
          exact addEdgeW_mem_of_mem _ _ _ _ _ ((hG u).mpr hu)
      · rw [if_neg h2]
        exact hG u

theorem mergeFold_weight (ns : List String) (nn : String) :
    ∀ (es : List (String × String × ℚ)) (G : WGraph) (x : String),
      x ∉ ns → x ≠ nn → (∀ e ∈ es, e.1 ≠ nn ∧ e.2.1 ≠ nn) →
      weightBetween ((es.foldl (mergeEdgeStep ns nn) G).edges) nn x =
        weightBetween G.edges nn x + memberExternalWeight es ns x := by
  intro es
  induction es with
  | nil =>
    intro G x _ _ _
    simp [memberExternalWeight]
  | cons e es ih =>
    intro G x hx hxnn hes
    rw [List.foldl_cons,
      ih _ x hx hxnn (fun y hy => hes y (List.mem_cons_of_mem _ hy))]
    have hmew : memberExternalWeight (e :: es) ns x =
        (if (e.1 ∈ ns ∧ e.2.1 = x) ∨ (e.2.1 ∈ ns ∧ e.1 = x) then e.2.2 else 0)
          + memberExternalWeight es ns x := by
      rw [memberExternalWeight, List.filter_cons]
      by_cases hc : (e.1 ∈ ns ∧ e.2.1 = x) ∨ (e.2.1 ∈ ns ∧ e.1 = x)
      · simp [hc, memberExternalWeight]
      · simp [hc, memberExternalWeight]
    rw [hmew]
    obtain ⟨hn1, hn2⟩ := hes e (List.mem_cons_self e es)
    rw [mergeEdgeStep]
    by_cases h1 : e.1 ∈ ns
    · rw [if_pos h1, weightBetween_addEdgeW]
      have hc1 : ((e.2.1 = nn ∧ nn = x) ∨ (e.2.1 = x ∧ nn = nn)) ↔
          e.2.1 = x := by
        constructor
        · rintro (⟨h, _⟩ | ⟨h, _⟩)
          · exact absurd h hn2
          · exact h
        · intro h
          exact Or.inr ⟨h, rfl⟩
      have hc2 : ((e.1 ∈ ns ∧ e.2.1 = x) ∨ (e.2.1 ∈ ns ∧ e.1 = x)) ↔
          e.2.1 = x := by
        constructor
        · rintro (⟨_, h⟩ | ⟨_, h⟩)
          · exact h
          · exact absurd (h ▸ h1) hx
        · intro h
          exact Or.inl ⟨h1, h⟩
      rw [if_congr hc1 rfl rfl, if_congr hc2 rfl rfl]
      ring
    · rw [if_neg h1]
      by_cases h2 : e.2.1 ∈ ns
      · rw [if_pos h2, weightBetween_addEdgeW]
        have hc1 : ((e.1 = nn ∧ nn = x) ∨ (e.1 = x ∧ nn = nn)) ↔ e.1 = x := by
          constructor
          · rintro (⟨h, _⟩ | ⟨h, _⟩)
            · exact absurd h hn1
            · exact h
          · intro h
            exact Or.inr ⟨h, rfl⟩
        have hc2 : ((e.1 ∈ ns ∧ e.2.1 = x) ∨ (e.2.1 ∈ ns ∧ e.1 = x)) ↔
            e.1 = x := by
          constructor
          · rintro (⟨h, _⟩ | ⟨_, h⟩)
            · exact absurd h h1
            · exact h
          · intro h
            exact Or.inr ⟨h2, h⟩
        rw [if_congr hc1 rfl rfl, if_congr hc2 rfl rfl]
        ring
      · rw [if_neg h2]
        have hc : ¬ ((e.1 ∈ ns ∧ e.2.1 = x) ∨ (e.2.1 ∈ ns ∧ e.1 = x)) := by
          rintro (⟨h, _⟩ | ⟨h, _⟩)
          · exact h1 h
          · exact h2 h
        rw [if_neg hc]
        ring

theorem removeNodesW_spec :
    ∀ (ns : List String) (G : WGraph), ns.Nodup → (∀ v ∈ ns, v ∈ G.nodes) →
      ∃ H, removeNodesW G ns = some H ∧
        (∀ v, v ∈ H.nodes ↔ v ∈ G.nodes ∧ v ∉ ns) ∧
        H.edges = G.edges.filter (fun e => e.1 ∉ ns ∧ e.2.1 ∉ ns) := by
  intro ns
  induction ns with
  | nil =>
    intro G _ _
    refine ⟨G, rfl, fun v => by simp, ?_⟩
    simp
  | cons v vs ih =>
    intro G hnd hsub
    have hvvs : v ∉ vs := (List.nodup_cons.mp hnd).1
    have hnd' : vs.Nodup := (List.nodup_cons.mp hnd).2
    have hrm : removeNodeW G v = some
        { nodes := G.nodes.filter (fun x => x ≠ v),
          edges := G.edges.filter (fun e => e.1 ≠ v ∧ e.2.1 ≠ v) } := by
      rw [removeNodeW, if_pos (hsub v (List.mem_cons_self v vs))]
    have hsub' : ∀ u ∈ vs,
        u ∈ (G.nodes.filter (fun x => x ≠ v)) := by
      intro u hu
      rw [List.mem_filter]
      refine ⟨hsub u (List.mem_cons_of_mem _ hu), ?_⟩
      simp only [decide_eq_true_eq]
      intro he
      exact hvvs (he ▸ hu)
    obtain ⟨H, hH, hHmem, hHedges⟩ := ih
      { nodes := G.nodes.filter (fun x => x ≠ v),
        edges := G.edges.filter (fun e => e.1 ≠ v ∧ e.2.1 ≠ v) } hnd' hsub'
    refine ⟨H, ?_, ?_, ?_⟩
    · rw [removeNodesW, hrm]
      exact hH
    · intro u
      rw [hHmem u]
      simp only [List.mem_filter, decide_eq_true_eq, List.mem_cons, not_or]
      tauto
    · rw [hHedges]
      simp only [List.filter_filter]
      apply List.filter_congr
      intro e _
      have hiff : ((e.1 ∉ vs ∧ e.2.1 ∉ vs) ∧ (e.1 ≠ v ∧ e.2.1 ≠ v)) ↔
          (e.1 ∉ v :: vs ∧ e.2.1 ∉ v :: vs) := by
        simp only [List.mem_cons, not_or]
        tauto
      calc (decide (e.1 ∉ vs ∧ e.2.1 ∉ vs) && decide (e.1 ≠ v ∧ e.2.1 ≠ v))
          = decide ((e.1 ∉ vs ∧ e.2.1 ∉ vs) ∧ (e.1 ≠ v ∧ e.2.1 ≠ v)) :=
            (Bool.decide_and _ _).symm
        _ = decide (e.1 ∉ v :: vs ∧ e.2.1 ∉ v :: vs) :=
            decide_eq_decide.mpr hiff

theorem weightBetween_filter (c d : String)
    (p : String × String × ℚ → Bool) :
    ∀ es : List (String × String × ℚ),
      (∀ e ∈ es, edgeMatches e c d → p e = true) →
      weightBetween (es.filter p) c d = weightBetween es c d := by
  intro es
  induction es with
  | nil =>
    intro _
    simp
  | cons e es ih =>
    intro h
    rw [List.filter_cons]
    by_cases hp : p e = true
    · rw [if_pos hp, weightBetween_cons, weightBetween_cons,
        ih (fun y hy => h y (List.mem_cons_of_mem _ hy))]
    · rw [if_neg hp, weightBetween_cons,
        ih (fun y hy => h y (List.mem_cons_of_mem _ hy))]
      have hm : ¬ edgeMatches e c d :=
        fun hc => hp (h e (List.mem_cons_self e es) hc)
      rw [if_neg hm]
      ring

theorem bumpWeight_not_matches (a b : String) (w : ℚ) (c d : String) :
    ∀ es : List (String × String × ℚ), (∀ e ∈ es, ¬ edgeMatches e c d) →
      ∀ e ∈ bumpWeight es a b w, ¬ edgeMatches e c d := by
  intro es
  induction es with
  | nil =>
    intro _ e he
    exact absurd he (List.not_mem_nil e)
  | cons f es ih =>
    intro h e he
    rw [bumpWeight] at he
    by_cases hm : edgeMatches f a b
    · rw [if_pos hm] at he
      rcases List.mem_cons.mp he with rfl | he'
      · intro hc
        apply h f (List.mem_cons_self f es)
        rcases hc with ⟨h1, h2⟩ | ⟨h1, h2⟩
        · exact Or.inl ⟨h1, h2⟩
        · exact Or.inr ⟨h1, h2⟩
      · exact h e (List.mem_cons_of_mem _ he')
    · rw [if_neg hm] at he
      rcases List.mem_cons.mp he with hef | he'
      · subst hef
        exact h e (List.mem_cons_self e es)
      · exact ih (fun y hy => h y (List.mem_cons_of_mem _ hy)) e he'

theorem addEdgeW_not_matches (G : WGraph) (a b : String) (w : ℚ)
    (c d : String) (hG : ∀ e ∈ G.edges, ¬ edgeMatches e c d)
    (hab : ¬ ((a = c ∧ b = d) ∨ (a = d ∧ b = c))) :
    ∀ e ∈ (addEdgeW G a b w).edges, ¬ edgeMatches e c d := by
  intro e he
  rw [addEdgeW] at he
  by_cases hh : hasEdgeW G a b
  · rw [if_pos hh] at he
    exact bumpWeight_not_matches a b w c d G.edges hG e he
  · rw [if_neg hh] at he
    have he' : e ∈ G.edges ++ [(a, b, w)] := by
      simpa [addNodeW_edges] using he
    rcases List.mem_append.mp he' with h | h
    · exact hG e h
    · rcases List.mem_singleton.mp h with rfl
      intro hm
      exact hab hm

theorem mergeFold_no_new_self (ns : List String) (nn : String) :
    ∀ (es : List (String × String × ℚ)) (G : WGraph),
      (∀ e ∈ es, e.1 ≠ nn ∧ e.2.1 ≠ nn) →
      (∀ e ∈ G.edges, ¬ edgeMatches e nn nn) →
      ∀ e ∈ (es.foldl (mergeEdgeStep ns nn) G).edges,
        ¬ edgeMatches e nn nn := by
  intro es
  induction es with
  | nil =>
    intro G _ hG
    simpa using hG
  | cons e es ih =>
    intro G hes hG
    rw [List.foldl_cons]
    refine ih (mergeEdgeStep ns nn G e)
      (fun y hy => hes y (List.mem_cons_of_mem _ hy)) ?_
    obtain ⟨hn1, hn2⟩ := hes e (List.mem_cons_self e es)
    rw [mergeEdgeStep]
    by_cases h1 : e.1 ∈ ns
    · rw [if_pos h1]
      apply addEdgeW_not_matches G e.2.1 nn e.2.2 nn nn hG
      rintro (⟨h, _⟩ | ⟨h, _⟩)
      · exact hn2 h
      · exact hn2 h
    · rw [if_neg h1]
      by_cases h2 : e.2.1 ∈ ns
      · rw [if_pos h2]
        apply addEdgeW_not_matches G e.1 nn e.2.2 nn nn hG
        rintro (⟨h, _⟩ | ⟨h, _⟩)
        · exact hn1 h
        · exact hn1 h
      · rw [if_neg h2]
        exact hG

/-- C5: `merge_nodes` contracts the community `ns` into `new_node`: member
nodes are removed and the super-node added; no surviving edge touches a
member; no edge joins the super-node to itself — the intra-community edges
are discarded, not folded into a self-loop — and for every external node `x`
the weight between the super-node and `x` is the sum of the weights of the
original member-to-`x` edges (redirected edges landing on the same pair are
summed). -/
theorem merge_nodes_contraction (G1 : WGraph) (ns : List String)
    (new_node : String) (hnew_ns : new_node ∉ ns)
    (hnew_nodes : new_node ∉ G1.nodes)
    (hwf : ∀ e ∈ G1.edges, e.1 ∈ G1.nodes ∧ e.2.1 ∈ G1.nodes)
    (hsub : ∀ v ∈ ns, v ∈ G1.nodes) (hnd : ns.Nodup) :
    ∃ G2, mergeNodes G1 ns new_node = some G2 ∧
      (∀ v, v ∈ G2.nodes ↔ ((v ∈ G1.nodes ∧ v ∉ ns) ∨ v = new_node)) ∧
      (∀ e ∈ G2.edges, e.1 ∉ ns ∧ e.2.1 ∉ ns) ∧
      (∀ e ∈ G2.edges, ¬ edgeMatches e new_node new_node) ∧
      weightBetween G2.edges new_node new_node = 0 ∧
      (∀ x, x ∉ ns → x ≠ new_node →
        weightBetween G2.edges new_node x =
          memberExternalWeight G1.edges ns x) := by
  have hG0mem : ∀ v, v ∈ (addNodeW G1 new_node).nodes ↔
      v ∈ G1.nodes ∨ v = new_node := fun v => addNodeW_mem G1 new_node v
  have hFmem : ∀ v,
      v ∈ (G1.edges.foldl (mergeEdgeStep ns new_node)
        (addNodeW G1 new_node)).nodes ↔ v ∈ G1.nodes ∨ v = new_node :=
    mergeFold_nodes_mem G1 ns new_node G1.edges _ hwf hG0mem
  have hnn : ∀ e ∈ G1.edges, e.1 ≠ new_node ∧ e.2.1 ≠ new_node := by
    intro e he
    obtain ⟨h1, h2⟩ := hwf e he
    exact ⟨fun hc => hnew_nodes (hc ▸ h1), fun hc => hnew_nodes (hc ▸ h2)⟩
  have hFw : ∀ x, x ∉ ns → x ≠ new_node →
      weightBetween (G1.edges.foldl (mergeEdgeStep ns new_node)
        (addNodeW G1 new_node)).edges new_node x =
        memberExternalWeight G1.edges ns x := by
    intro x hx hxn
    rw [mergeFold_weight ns new_node G1.edges _ x hx hxn hnn]
    have h0 : weightBetween (addNodeW G1 new_node).edges new_node x = 0 := by
      rw [addNodeW_edges]
      apply weightBetween_eq_zero
      intro e he hm
      obtain ⟨hn1, hn2⟩ := hnn e he
      rcases hm with ⟨h, _⟩ | ⟨_, h⟩
      · exact hn1 h
      · exact hn2 h
    rw [h0, zero_add]
  have hsubF : ∀ v ∈ ns,
      v ∈ (G1.edges.foldl (mergeEdgeStep ns new_node)
        (addNodeW G1 new_node)).nodes := by
    intro v hv
    exact (hFmem v).mpr (Or.inl (hsub v hv))
  have hG0noself : ∀ e ∈ (addNodeW G1 new_node).edges,
      ¬ edgeMatches e new_node new_node := by
    rw [addNodeW_edges]
    intro e he hm
    obtain ⟨hn1, _⟩ := hnn e he
    rcases hm with ⟨h, _⟩ | ⟨h, _⟩
    · exact hn1 h
    · exact hn1 h
  have hFnoself : ∀ e ∈ (G1.edges.foldl (mergeEdgeStep ns new_node)
      (addNodeW G1 new_node)).edges, ¬ edgeMatches e new_node new_node :=
    mergeFold_no_new_self ns new_node G1.edges _ hnn hG0noself
  obtain ⟨H, hH, hHmem, hHedges⟩ := removeNodesW_spec ns _ hnd hsubF
  refine ⟨H, hH, ?_, ?_, ?_, ?_, ?_⟩
  · intro v
    rw [hHmem v, (by rfl :
      (v ∈ (G1.edges.foldl (mergeEdgeStep ns new_node)
        (addNodeW G1 new_node)).nodes) = _)]
    rw [hFmem v]
    constructor
    · rintro ⟨h | h, hns⟩
      · exact Or.inl ⟨h, hns⟩
      · exact Or.inr h
    · rintro (⟨h, hns⟩ | rfl)
      · exact ⟨Or.inl h, hns⟩
      · exact ⟨Or.inr rfl, hnew_ns⟩
  · intro e he
    rw [hHedges, List.mem_filter] at he
    simpa using he.2
  · intro e he
    rw [hHedges, List.mem_filter] at he
    exact hFnoself e he.1
  · apply weightBetween_eq_zero
    intro e he
    rw [hHedges, List.mem_filter] at he
    exact hFnoself e he.1
  · intro x hx hxn
    have hkeep : ∀ e ∈ (G1.edges.foldl (mergeEdgeStep ns new_node)
        (addNodeW G1 new_node)).edges, edgeMatches e new_node x →
        decide (e.1 ∉ ns ∧ e.2.1 ∉ ns) = true := by
      intro e _ hm
      simp only [decide_eq_true_eq]
      rcases hm with ⟨h1, h2⟩ | ⟨h1, h2⟩
      · exact ⟨by rw [h1]; exact hnew_ns, by rw [h2]; exact hx⟩
      · exact ⟨by rw [h1]; exact hx, by rw [h2]; exact hnew_ns⟩
    rw [hHedges, weightBetween_filter new_node x _ _ hkeep]
    exact hFw x hx hxn

/-- Witness for C5 on the spec's example: contracting `{2, 3}` into `bin_1`
merges the redirected weights 3 and 4 into 7 on `(bin_1, 5)`, no surviving
edge touches a member, and the intra-community edge `(2, 3, 9)` is discarded
rather than folded into a `(bin_1, bin_1)` self-loop. -/
theorem merge_nodes_contraction_witness :
    ∃ G2, mergeNodes exGraph ["2", "3"] "bin_1" = some G2 ∧
      weightBetween G2.edges "bin_1" "5" =
        memberExternalWeight exGraph.edges ["2", "3"] "5" ∧
      (∀ e ∈ G2.edges, e.1 ∉ (["2", "3"] : List String) ∧
        e.2.1 ∉ (["2", "3"] : List String)) ∧
      (∀ e ∈ G2.edges, ¬ edgeMatches e "bin_1" "bin_1") ∧
      weightBetween G2.edges "bin_1" "bin_1" = 0 ∧
      memberExternalWeight exGraph.edges ["2", "3"] "5" = 7 := by
  obtain ⟨G2, hG2, _, hedges, hnoself, hzero, hw⟩ :=
    merge_nodes_contraction exGraph ["2", "3"] "bin_1" (by decide)
      (by decide) (by decide) (by decide) (by decide)
  refine ⟨G2, hG2, hw "5" (by decide) (by decide), hedges, hnoself, hzero, ?_⟩
  simp [memberExternalWeight, exGraph]
  norm_num

/-- C8: `contigs_bin_network` never reaches its partition logic.  The table
columns are labeled `"ID"`, `"Name"`, ... (with `"Restriction_site"`
silently concatenated to `"core_comunitiy_id"`), yet the code reads columns
`"id"`, `"name"`, `"oc_id"` and `"oc_length"`: every invocation raises a
pandas `KeyError` before any contig joins a member list, so the claimed
size-threshold partition and bin graph are never produced. -/
theorem contigs_bin_network_always_crashes :
    columnIndex? contigsDataColumns "id" = none ∧
    ∀ (rows : List (List String)) (network : WGraph)
      (contigs_of_interest : Option (List String)) (bin_size : ℕ),
      contigsBinNetwork rows network contigs_of_interest bin_size = none := by
  have hid : columnIndex? contigsDataColumns "id" = none := by decide
  have hname : columnIndex? contigsDataColumns "name" = none := by decide
  refine ⟨hid, ?_⟩
  intro rows network oi bs
  rw [contigsBinNetwork.eq_def]
  split
  · cases oi with
    | none => rw [hid]
    | some names => rw [hname]
  · rfl
